import Mathlib

/-!
# Verification of `approx_collections` (FloatPool / ApproxHashMap / trait layer)

Shallow embedding of the Rust crate `approx_collections`:

* `f64` values are modelled as rationals (`ℚ`); the claims under study concern
  the bucketing / interning / table bookkeeping logic, not IEEE rounding.
* `std::collections::HashMap` is modelled as an association list with
  replace-on-insert semantics (`mapLookup` / `mapInsert`).
* Composite `ApproxHash` values are modelled as the list of their floats in
  visitation order (`intern_floats` visits every float in declaration order).
-/

set_option maxRecDepth 4000

namespace ApproxCollections

/-- Association-list lookup, modelling `HashMap::get`: returns the value of
the first (unique, since keys are kept distinct) entry with the given key. -/
def mapLookup {κ ν : Type} [DecidableEq κ] (k : κ) : List (κ × ν) → Option ν
  | [] => none
  | (k', v') :: t => if k = k' then some v' else mapLookup k t

/-- Association-list insert, modelling `HashMap::insert`: replaces the value
of an existing entry with the given key, otherwise appends a new entry. -/
def mapInsert {κ ν : Type} [DecidableEq κ] (k : κ) (v : ν) : List (κ × ν) → List (κ × ν)
  | [] => [(k, v)]
  | (k', v') :: t => if k = k' then (k, v) :: t else (k', v') :: mapInsert k v t

@[simp]
theorem mapLookup_mapInsert_self {κ ν : Type} [DecidableEq κ] (k : κ) (v : ν)
    (l : List (κ × ν)) : mapLookup k (mapInsert k v l) = some v := by
  induction l with
  | nil => simp [mapInsert, mapLookup]
  | cons p t ih =>
    obtain ⟨k', v'⟩ := p
    by_cases h : k = k' <;> simp [mapInsert, mapLookup, h, ih]

theorem mapLookup_mapInsert_ne {κ ν : Type} [DecidableEq κ] {k k' : κ} (v : ν)
    (l : List (κ × ν)) (h : k' ≠ k) :
    mapLookup k' (mapInsert k v l) = mapLookup k' l := by
  induction l with
  | nil => simp [mapInsert, mapLookup, h]
  | cons p t ih =>
    obtain ⟨k₀, v₀⟩ := p
    by_cases hk : k = k₀
    · subst hk
      simp [mapInsert, mapLookup, h, ih]
    · by_cases hk' : k' = k₀ <;> simp [mapInsert, mapLookup, hk, hk', ih]

theorem isSome_mapLookup_mapInsert {κ ν : Type} [DecidableEq κ] {k : κ} (k' : κ) (v : ν)
    (l : List (κ × ν)) (h : (mapLookup k l).isSome) :
    (mapLookup k (mapInsert k' v l)).isSome := by
  by_cases hk : k = k'
  · subst hk; simp
  · rwa [mapLookup_mapInsert_ne v l hk]

theorem keys_mapInsert {κ ν : Type} [DecidableEq κ] (k : κ) (v : ν) (l : List (κ × ν)) :
    (mapInsert k v l).map Prod.fst =
      if k ∈ l.map Prod.fst then l.map Prod.fst else l.map Prod.fst ++ [k] := by
  induction l with
  | nil => simp [mapInsert]
  | cons p t ih =>
    obtain ⟨k₀, v₀⟩ := p
    by_cases hk : k = k₀
    · subst hk; simp [mapInsert]
    · by_cases hmem : k ∈ t.map Prod.fst <;>
        simp [mapInsert, hk, ih, Ne.symm hk, hmem]

theorem nodupKeys_mapInsert {κ ν : Type} [DecidableEq κ] (k : κ) (v : ν) (l : List (κ × ν))
    (h : (l.map Prod.fst).Nodup) : ((mapInsert k v l).map Prod.fst).Nodup := by
  rw [keys_mapInsert]
  by_cases hmem : k ∈ l.map Prod.fst
  · simpa [hmem]
  · simpa [hmem] using List.Nodup.append h (List.nodup_singleton k) (by simpa using hmem)

theorem mem_mapInsert {κ ν : Type} [DecidableEq κ] {kv : κ × ν} {k : κ} {v : ν}
    {l : List (κ × ν)} (hnd : (l.map Prod.fst).Nodup) (hmem : kv ∈ mapInsert k v l) :
    kv = (k, v) ∨ (kv ∈ l ∧ kv.1 ≠ k) := by
  induction l with
  | nil => simpa [mapInsert] using hmem
  | cons p t ih =>
    obtain ⟨k₀, v₀⟩ := p
    simp only [List.map_cons, List.nodup_cons] at hnd
    by_cases hk : k = k₀
    · subst hk
      rw [mapInsert, if_pos rfl, List.mem_cons] at hmem
      rcases hmem with hmem | hmem
      · exact Or.inl hmem
      · refine Or.inr ⟨List.mem_cons_of_mem _ hmem, fun hkv => ?_⟩
        exact hnd.1 (hkv ▸ List.mem_map_of_mem Prod.fst hmem)
    · rw [mapInsert, if_neg hk, List.mem_cons] at hmem
      rcases hmem with hmem | hmem
      · subst hmem
        exact Or.inr ⟨List.mem_cons_self _ _, fun hc => hk hc.symm⟩
      · rcases ih hnd.2 hmem with h' | h'
        · exact Or.inl h'
        · exact Or.inr ⟨List.mem_cons_of_mem _ h'.1, h'.2⟩

theorem mem_of_mapLookup_eq_some {κ ν : Type} [DecidableEq κ] {k : κ} {v : ν}
    {l : List (κ × ν)} (h : mapLookup k l = some v) : (k, v) ∈ l := by
  induction l with
  | nil => simp [mapLookup] at h
  | cons p t ih =>
    obtain ⟨k₀, v₀⟩ := p
    by_cases hk : k = k₀
    · subst hk
      rw [mapLookup, if_pos rfl, Option.some.injEq] at h
      subst h
      exact List.mem_cons_self _ _
    · rw [mapLookup, if_neg hk] at h
      exact List.mem_cons_of_mem _ (ih h)

theorem mapLookup_eq_some_of_mem {κ ν : Type} [DecidableEq κ] {k : κ} {v : ν}
    {l : List (κ × ν)} (hnd : (l.map Prod.fst).Nodup) (h : (k, v) ∈ l) :
    mapLookup k l = some v := by
  induction l with
  | nil => simp at h
  | cons p t ih =>
    obtain ⟨k₀, v₀⟩ := p
    simp only [List.map_cons, List.nodup_cons] at hnd
    rcases List.mem_cons.mp h with h | h
    · rw [Prod.ext_iff] at h
      obtain ⟨h1, h2⟩ := h
      simp only at h1 h2
      subst h1
      simp [mapLookup, h2]
    · have hk : k ≠ k₀ := by
        intro hc
        exact hnd.1 (hc ▸ List.mem_map_of_mem Prod.fst h)
      simp [mapLookup, hk, ih hnd.2 h]

/-! ## Precision

`src/src/precision.rs` is declared in `lib.rs` but its body is not under
`src/`; the definitions below are modelled from the spec. -/

/-- Modelled from the spec: `Precision` in absolute mode, "fixed-width
absolute mode parameterized by an integer exponent (bucket width = 2^-n)".
The relative/"simple" mode has an implementation-defined formula (spec §9
open question) and is not modelled. -/
structure Precision where
  exponent : ℤ
deriving DecidableEq

/-- Modelled from the spec: `Precision::absolute(n)`, bucket width `2^-n`. -/
def Precision.absolute (n : ℤ) : Precision := ⟨n⟩

/-- Modelled from the spec: the bucket width `W = 2^-n` of an absolute
precision. -/
def Precision.width (p : Precision) : ℚ := (2 : ℚ) ^ (-p.exponent)

/-- Truncation of a rational toward zero, the behavior of Rust's
`as i64` cast on quotients. -/
def ratTrunc (q : ℚ) : ℤ := if q < 0 then ⌈q⌉ else ⌊q⌋

/-- Modelled from the spec: `Precision::bucket`, "a simple linear
quantization (`floor(x / W)`) mapped into the unsigned space". The spec
says `floor`, but the test `map.get([-0.12, -2.9]) == Some('d')` in
`src/src/hash_map.rs` requires `bucket(-0.12) == bucket(0.12)`, which
forces quantization by truncation toward zero (`(x / W) as i64`); the
tests are code under `src/` and take precedence. The injective map into
`u64` is left implicit: buckets are identified with `ℤ`. -/
def Precision.bucket (p : Precision) (x : ℚ) : ℤ := ratTrunc (x / p.width)

/-- Modelled from the spec: `Precision::nearby_buckets`, `(lo?, mid, hi?)`
with `lo`/`hi` returned only when they differ from `mid`. The spec's §4.1
text offsets `x` by `W/2`, but the tests in `src/src/pool.rs` and
`src/src/hash_map.rs` (e.g. `intern(1.9)` returning the canonical `2.1` at
bucket width `0.125`) force the offset to be the full width `W`; the tests
are code under `src/` and take precedence. -/
def Precision.nearbyBuckets (p : Precision) (x : ℚ) : Option ℤ × ℤ × Option ℤ :=
  let mid := p.bucket x
  let lo := p.bucket (x - p.width)
  let hi := p.bucket (x + p.width)
  (if lo = mid then none else some lo, mid, if hi = mid then none else some hi)

theorem Precision.width_pos (p : Precision) : 0 < p.width :=
  zpow_pos (by norm_num) _

theorem ratTrunc_nonneg_eq_floor {q : ℚ} (h : 0 ≤ q) : ratTrunc q = ⌊q⌋ :=
  if_neg (not_lt.mpr h)

theorem ratTrunc_neg_eq_ceil {q : ℚ} (h : q < 0) : ratTrunc q = ⌈q⌉ :=
  if_pos h

theorem one_le_of_one_le_ratTrunc {q : ℚ} (h : 1 ≤ ratTrunc q) : 1 ≤ q := by
  by_cases hq : q < 0
  · rw [ratTrunc_neg_eq_ceil hq] at h
    have : (⌈q⌉ : ℤ) ≤ 0 := Int.ceil_le.mpr (by exact_mod_cast le_of_lt hq)
    omega
  · rw [ratTrunc_nonneg_eq_floor (not_lt.mp hq)] at h
    exact_mod_cast Int.le_floor.mp h

theorem le_neg_one_of_ratTrunc_le {q : ℚ} (h : ratTrunc q ≤ -1) : q ≤ -1 := by
  by_cases hq : q < 0
  · rw [ratTrunc_neg_eq_ceil hq] at h
    exact_mod_cast Int.ceil_le.mp h
  · rw [ratTrunc_nonneg_eq_floor (not_lt.mp hq)] at h
    have : (0 : ℤ) ≤ ⌊q⌋ := Int.floor_nonneg.mpr (not_lt.mp hq)
    omega

theorem ratTrunc_sub_one_pos {q : ℚ} (h : 1 ≤ ratTrunc q) :
    ratTrunc (q - 1) = ratTrunc q - 1 := by
  have hq : 1 ≤ q := one_le_of_one_le_ratTrunc h
  rw [ratTrunc_nonneg_eq_floor (by linarith : (0:ℚ) ≤ q - 1),
    ratTrunc_nonneg_eq_floor (by linarith : (0:ℚ) ≤ q), Int.floor_sub_one]

theorem ratTrunc_add_one_pos {q : ℚ} (h : 1 ≤ ratTrunc q) :
    ratTrunc (q + 1) = ratTrunc q + 1 := by
  have hq : 1 ≤ q := one_le_of_one_le_ratTrunc h
  rw [ratTrunc_nonneg_eq_floor (by linarith : (0:ℚ) ≤ q + 1),
    ratTrunc_nonneg_eq_floor (by linarith : (0:ℚ) ≤ q), Int.floor_add_one]

theorem ratTrunc_sub_one_neg {q : ℚ} (h : ratTrunc q ≤ -1) :
    ratTrunc (q - 1) = ratTrunc q - 1 := by
  have hq : q ≤ -1 := le_neg_one_of_ratTrunc_le h
  rw [ratTrunc_neg_eq_ceil (by linarith : q - 1 < 0),
    ratTrunc_neg_eq_ceil (by linarith : q < 0), Int.ceil_sub_one]

theorem ratTrunc_add_one_neg {q : ℚ} (h : ratTrunc q ≤ -1) :
    ratTrunc (q + 1) = ratTrunc q + 1 := by
  have hq : q ≤ -1 := le_neg_one_of_ratTrunc_le h
  rcases lt_or_eq_of_le (by linarith : q + 1 ≤ 0) with hlt | heq
  · rw [ratTrunc_neg_eq_ceil hlt, ratTrunc_neg_eq_ceil (by linarith : q < 0),
      Int.ceil_add_one]
  · have hq1 : q = -1 := by linarith
    subst hq1
    have hceil : (⌈(-1 : ℚ)⌉ : ℤ) = -1 := by
      rw [show ((-1 : ℚ)) = ((-1 : ℤ) : ℚ) by norm_num]
      exact Int.ceil_intCast _
    rw [show (-1 : ℚ) + 1 = 0 by norm_num,
      ratTrunc_nonneg_eq_floor (le_refl (0:ℚ)),
      ratTrunc_neg_eq_ceil (by norm_num : (-1:ℚ) < 0), hceil]
    norm_num

/-- Away from the zero bucket, the neighbor buckets always exist and are
exactly `mid ∓ 1` (near zero, truncation makes the zero bucket twice as
wide, and `lo`/`hi` can coincide with `mid`). -/
theorem Precision.nearbyBuckets_of_ne_zero (p : Precision) (x : ℚ)
    (hb : p.bucket x ≠ 0) :
    p.nearbyBuckets x = (some (p.bucket x - 1), p.bucket x, some (p.bucket x + 1)) := by
  have hw : p.width ≠ 0 := ne_of_gt p.width_pos
  have hsub : (x - p.width) / p.width = x / p.width - 1 := by
    rw [sub_div, div_self hw]
  have hadd : (x + p.width) / p.width = x / p.width + 1 := by
    rw [add_div, div_self hw]
  have hcase : 1 ≤ ratTrunc (x / p.width) ∨ ratTrunc (x / p.width) ≤ -1 := by
    unfold Precision.bucket at hb
    omega
  show (_, _, _) = (_, _, _)
  unfold Precision.bucket
  rw [hsub, hadd]
  rcases hcase with hc | hc
  · rw [ratTrunc_sub_one_pos hc, ratTrunc_add_one_pos hc, if_neg (by omega), if_neg (by omega)]
  · rw [ratTrunc_sub_one_neg hc, ratTrunc_add_one_neg hc, if_neg (by omega), if_neg (by omega)]

theorem Precision.bucket_zero (p : Precision) : p.bucket 0 = 0 := by
  unfold Precision.bucket
  rw [zero_div]
  unfold ratTrunc
  rw [if_neg (lt_irrefl (0 : ℚ))]
  exact Int.floor_zero

/-! ## FloatPool (src/src/pool.rs) -/

/-- `FloatPool`: the configured precision and the bucket-to-canonical-float
map (`floats: HashMap<u64, f64>`), modelled as an association list with
distinct keys. -/
structure FloatPool where
  prec : Precision
  floats : List (ℤ × ℚ)
deriving DecidableEq

namespace FloatPool

/-- `FloatPool::new`: starts with the seed entry `(0, 0.0)`. -/
def new (prec : Precision) : FloatPool :=
  { prec := prec, floats := [(0, 0)] }

/-- `FloatPool::get`: looks up the canonical value of `bucket(x)`;
non-mutating. -/
def get (p : FloatPool) (x : ℚ) : Option ℚ :=
  mapLookup (p.prec.bucket x) p.floats

/-- `FloatPool::insert`: computes `(lo, mid, hi) = nearby_buckets(x)`
(where `mid = bucket(x)`, written so here); if bucket `mid` is occupied,
return the existing canonical value (and its own bucket) with no state
change; otherwise store `x` at `mid` and also at `lo` and `hi` (when
present), using `HashMap::insert`, which overwrites existing entries.
Returns the resulting value, its bucket, and the updated pool. -/
def insert (p : FloatPool) (x : ℚ) : (ℚ × ℤ) × FloatPool :=
  match mapLookup (p.prec.bucket x) p.floats with
  | some f => ((f, p.prec.bucket f), p)
  | none =>
    let fl1 := mapInsert (p.prec.bucket x) x p.floats
    let fl2 := match (p.prec.nearbyBuckets x).1 with
      | some k => mapInsert k x fl1
      | none => fl1
    let fl3 := match (p.prec.nearbyBuckets x).2.2 with
      | some k => mapInsert k x fl2
      | none => fl2
    ((x, p.prec.bucket x), ⟨p.prec, fl3⟩)

/-- `FloatPool::intern` at a single `f64` (via `intern_in_place`, which sets
`*x = self.insert(*x).0`): returns the interned float and the updated
pool. -/
def internFloat (p : FloatPool) (x : ℚ) : ℚ × FloatPool :=
  ((p.insert x).1.1, (p.insert x).2)

/-- `FloatPool::intern` at a composite value, modelled as the list of the
value's floats in visitation order: each float is replaced by
`insert(*x).0` in sequence, threading the pool state. -/
def internList (p : FloatPool) : List ℚ → List ℚ × FloatPool
  | [] => ([], p)
  | x :: xs =>
    let (y, p') := p.internFloat x
    let (ys, p'') := p'.internList xs
    (y :: ys, p'')

/-- `FloatPool::try_intern` at a composite value (list of floats in
visitation order): non-mutating (`&self`); each float is replaced by its
bucket's existing canonical value, and the whole call returns `none` as
soon as any float's bucket is unoccupied. -/
def tryInternList (p : FloatPool) : List ℚ → Option (List ℚ)
  | [] => some []
  | x :: xs =>
    match p.get x with
    | some saved => (p.tryInternList xs).map (saved :: ·)
    | none => none

/-- `FloatPool::bucket_count`: number of occupied buckets. -/
def bucketCount (p : FloatPool) : ℕ := p.floats.length

/-- The floats yielded by `FloatPool::iter` / `into_iter`
(`FloatIterInner::next` keeps an entry `(k, v)` iff `prec.bucket(v) == k`),
as a list (the iteration order of the underlying `HashMap` is undefined;
the claims under study are order-independent). -/
def toFloatList (p : FloatPool) : List ℚ :=
  (p.floats.filter (fun kv => p.prec.bucket kv.2 == kv.1)).map Prod.snd

end FloatPool

/-- Pools reachable from `FloatPool::new` by any sequence of
`intern`/`intern_in_place` calls (each such call is a sequence of
single-float `insert` steps). -/
inductive PoolReachable (prec : Precision) : FloatPool → Prop
  | base : PoolReachable prec (FloatPool.new prec)
  | step (p : FloatPool) (x : ℚ) (h : PoolReachable prec p) :
      PoolReachable prec (p.internFloat x).2

theorem FloatPool.insert_occupied {p : FloatPool} {x f : ℚ}
    (h : mapLookup (p.prec.bucket x) p.floats = some f) :
    p.insert x = ((f, p.prec.bucket f), p) := by
  unfold FloatPool.insert
  simp [h]

theorem FloatPool.insert_vacant {p : FloatPool} {x : ℚ} (hb : p.prec.bucket x ≠ 0)
    (h : mapLookup (p.prec.bucket x) p.floats = none) :
    (p.insert x).1 = (x, p.prec.bucket x) ∧
    (p.insert x).2.prec = p.prec ∧
    (p.insert x).2.floats =
      mapInsert (p.prec.bucket x + 1) x
        (mapInsert (p.prec.bucket x - 1) x
          (mapInsert (p.prec.bucket x) x p.floats)) := by
  unfold FloatPool.insert
  rw [Precision.nearbyBuckets_of_ne_zero p.prec x hb]
  simp [h]

/-- `insert` never removes a bucket key: an occupied bucket stays
occupied. -/
theorem FloatPool.insert_preserves_key {p : FloatPool} {x : ℚ} (k : ℤ)
    (hk : (mapLookup k p.floats).isSome) :
    (mapLookup k (p.insert x).2.floats).isSome := by
  cases hlk : mapLookup (p.prec.bucket x) p.floats with
  | some f =>
    rw [FloatPool.insert_occupied hlk]
    exact hk
  | none =>
    unfold FloatPool.insert
    simp only [hlk]
    rcases h1 : (p.prec.nearbyBuckets x).1 with _ | l1
    · rcases h2 : (p.prec.nearbyBuckets x).2.2 with _ | l2
      · simp only [h1, h2]
        exact isSome_mapLookup_mapInsert _ _ _ hk
      · simp only [h1, h2]
        exact isSome_mapLookup_mapInsert _ _ _ (isSome_mapLookup_mapInsert _ _ _ hk)
    · rcases h2 : (p.prec.nearbyBuckets x).2.2 with _ | l2
      · simp only [h1, h2]
        exact isSome_mapLookup_mapInsert _ _ _ (isSome_mapLookup_mapInsert _ _ _ hk)
      · simp only [h1, h2]
        exact isSome_mapLookup_mapInsert _ _ _
          (isSome_mapLookup_mapInsert _ _ _ (isSome_mapLookup_mapInsert _ _ _ hk))

/-- The internal invariant of a reachable pool: bucket keys are distinct,
the zero-bucket key is occupied, every stored float is the canonical value
of its own bucket, and a float stored under a neighbor key has both
neighbors of its own bucket occupied. -/
def PoolInv (p : FloatPool) : Prop :=
  (p.floats.map Prod.fst).Nodup ∧
  (mapLookup 0 p.floats).isSome ∧
  ∀ kv ∈ p.floats,
    mapLookup (p.prec.bucket kv.2) p.floats = some kv.2 ∧
    (kv.1 ≠ p.prec.bucket kv.2 →
      (mapLookup (p.prec.bucket kv.2 - 1) p.floats).isSome ∧
      (mapLookup (p.prec.bucket kv.2 + 1) p.floats).isSome)

theorem poolInv_new (prec : Precision) : PoolInv (FloatPool.new prec) := by
  refine ⟨by simp [FloatPool.new], rfl, ?_⟩
  intro kv hkv
  simp only [FloatPool.new, List.mem_singleton] at hkv
  subst hkv
  refine ⟨?_, fun hne => absurd (prec.bucket_zero).symm hne⟩
  rw [Precision.bucket_zero]
  rfl

theorem poolInv_step {p : FloatPool} (hp : PoolInv p) (x : ℚ) :
    PoolInv (p.internFloat x).2 := by
  obtain ⟨hnd, hkey0, hinv⟩ := hp
  cases h : mapLookup (p.prec.bucket x) p.floats with
  | some f =>
    have : (p.internFloat x).2 = p := by
      unfold FloatPool.internFloat
      rw [FloatPool.insert_occupied h]
    rw [this]
    exact ⟨hnd, hkey0, hinv⟩
  | none =>
    have hb : p.prec.bucket x ≠ 0 := by
      intro hc
      rw [← hc, h] at hkey0
      simp at hkey0
    obtain ⟨-, hqprec, hqfl⟩ := FloatPool.insert_vacant hb h
    have hqprec' : (p.internFloat x).2.prec = p.prec := hqprec
    have hqfl' : (p.internFloat x).2.floats =
        mapInsert (p.prec.bucket x + 1) x
          (mapInsert (p.prec.bucket x - 1) x
            (mapInsert (p.prec.bucket x) x p.floats)) := hqfl
    unfold PoolInv
    rw [hqprec', hqfl']
    set mid := p.prec.bucket x with hmid
    set fl3 := mapInsert (mid + 1) x (mapInsert (mid - 1) x (mapInsert mid x p.floats))
      with hfl3
    have hnd1 : ((mapInsert mid x p.floats).map Prod.fst).Nodup :=
      nodupKeys_mapInsert _ _ _ hnd
    have hnd2 : ((mapInsert (mid - 1) x (mapInsert mid x p.floats)).map Prod.fst).Nodup :=
      nodupKeys_mapInsert _ _ _ hnd1
    have hnd3 : (fl3.map Prod.fst).Nodup := nodupKeys_mapInsert _ _ _ hnd2
    -- lookup characterization in the new float table
    have hlook : ∀ k : ℤ, mapLookup k fl3 =
        if k = mid + 1 ∨ k = mid - 1 ∨ k = mid then some x else mapLookup k p.floats := by
      intro k
      by_cases h1 : k = mid + 1
      · subst h1; simp [hfl3]
      · by_cases h2 : k = mid - 1
        · subst h2
          rw [hfl3, mapLookup_mapInsert_ne _ _ h1, mapLookup_mapInsert_self]
          simp
        · by_cases h3 : k = mid
          · subst h3
            rw [hfl3, mapLookup_mapInsert_ne _ _ h1, mapLookup_mapInsert_ne _ _ h2,
              mapLookup_mapInsert_self]
            simp
          · rw [hfl3, mapLookup_mapInsert_ne _ _ h1, mapLookup_mapInsert_ne _ _ h2,
              mapLookup_mapInsert_ne _ _ h3]
            simp [h1, h2, h3]
    have hxmem : ∀ kv : ℤ × ℚ, kv ∈ fl3 →
        kv.2 = x ∨ (kv ∈ p.floats ∧ kv.1 ≠ mid ∧ kv.1 ≠ mid - 1 ∧ kv.1 ≠ mid + 1) := by
      intro kv hkv
      rcases mem_mapInsert hnd2 hkv with h' | ⟨hkv2, hne1⟩
      · left; rw [h']
      rcases mem_mapInsert hnd1 hkv2 with h' | ⟨hkv3, hne2⟩
      · left; rw [h']
      rcases mem_mapInsert hnd hkv3 with h' | ⟨hkv4, hne3⟩
      · left; rw [h']
      · exact Or.inr ⟨hkv4, hne3, hne2, hne1⟩
    have hkey0' : (mapLookup 0 fl3).isSome := by
      rw [hlook 0]
      split
      · rfl
      · exact hkey0
    refine ⟨hnd3, hkey0', ?_⟩
    intro kv hkv
    rcases hxmem kv hkv with hx | ⟨hold, hne_mid, hne_lo, hne_hi⟩
    · -- a fresh copy of x: its own bucket is mid, which now holds x
      rw [hx]
      constructor
      · rw [hlook]
        simp [← hmid]
      · intro _
        constructor
        · rw [hlook]; simp
        · rw [hlook]; simp
    · -- an old entry that survived
      obtain ⟨hcan, hnbr⟩ := hinv kv hold
      have hbne_mid : p.prec.bucket kv.2 ≠ mid := by
        intro hc
        rw [hc, h] at hcan
        exact Option.noConfusion hcan
      have hbne_lo : p.prec.bucket kv.2 ≠ mid - 1 := by
        intro hc
        -- then kv is stored away from its bucket, so bucket+1 = mid is occupied
        have hk_ne : kv.1 ≠ p.prec.bucket kv.2 := by
          rw [hc]; exact hne_lo
        have := (hnbr hk_ne).2
        rw [hc, sub_add_cancel, h] at this
        simp at this
      have hbne_hi : p.prec.bucket kv.2 ≠ mid + 1 := by
        intro hc
        have hk_ne : kv.1 ≠ p.prec.bucket kv.2 := by
          rw [hc]; exact hne_hi
        have := (hnbr hk_ne).1
        rw [hc, add_sub_cancel_right, h] at this
        simp at this
      constructor
      · rw [hlook]
        simp only [hbne_mid, hbne_lo, hbne_hi, or_self, if_false]
        exact hcan
      · intro hk_ne
        obtain ⟨hlo, hhi⟩ := hnbr hk_ne
        constructor
        · rw [hlook]
          split
          · rfl
          · exact hlo
        · rw [hlook]
          split
          · rfl
          · exact hhi

theorem poolInv_of_reachable {prec : Precision} {p : FloatPool}
    (hp : PoolReachable prec p) : PoolInv p := by
  induction hp with
  | base => exact poolInv_new prec
  | step p x _ ih => exact poolInv_step ih x

/-! ## Claims about the FloatPool -/

/-- C3 counterexample: the claim "intern never changes the canonical value
of any bucket that was already occupied before the call" is false. In a
fresh pool at `Precision::absolute(3)`, bucket 0 is occupied with canonical
`0.0`; interning `0.2` (whose `mid` bucket 1 is vacant and whose `lo`
neighbor is bucket 0) overwrites bucket 0's canonical value to `0.2`. -/
theorem c3_counterexample :
    mapLookup 0 (FloatPool.new (Precision.absolute 3)).floats = some 0 ∧
    mapLookup 0 ((FloatPool.new (Precision.absolute 3)).internFloat (1/5)).2.floats =
      some (1/5) ∧
    (1/5 : ℚ) ≠ 0 := by
  refine ⟨rfl, ?_, by norm_num⟩
  norm_num [FloatPool.internFloat, FloatPool.insert, Precision.nearbyBuckets, FloatPool.new,
    mapLookup, mapInsert, Precision.bucket, ratTrunc, Precision.width, Precision.absolute]

/-- C3 amended: `insert` on an occupied `mid` returns the existing canonical
value with no state change; on a vacant `mid` (away from the zero bucket,
which is occupied from construction on) it registers `x` for `mid`, `lo`
and `hi`, overwriting `lo`/`hi` even when they are occupied; buckets other
than `mid`, `lo` and `hi` are never changed. -/
theorem c3_amended_insert_frame (p : FloatPool) (x : ℚ) :
    (∀ f, mapLookup (p.prec.bucket x) p.floats = some f →
      (p.insert x).1 = (f, p.prec.bucket f) ∧ (p.insert x).2 = p) ∧
    (p.prec.bucket x ≠ 0 →
      mapLookup (p.prec.bucket x) p.floats = none →
      mapLookup (p.prec.bucket x) (p.insert x).2.floats = some x ∧
      mapLookup (p.prec.bucket x - 1) (p.insert x).2.floats = some x ∧
      mapLookup (p.prec.bucket x + 1) (p.insert x).2.floats = some x) ∧
    (∀ k : ℤ, k ≠ p.prec.bucket x →
      (∀ l, (p.prec.nearbyBuckets x).1 = some l → k ≠ l) →
      (∀ l, (p.prec.nearbyBuckets x).2.2 = some l → k ≠ l) →
      mapLookup k (p.insert x).2.floats = mapLookup k p.floats) := by
  refine ⟨?_, ?_, ?_⟩
  · intro f hf
    rw [FloatPool.insert_occupied hf]
    exact ⟨rfl, rfl⟩
  · intro hb h
    obtain ⟨-, -, hfl⟩ := FloatPool.insert_vacant hb h
    rw [hfl]
    refine ⟨?_, ?_, ?_⟩
    · rw [mapLookup_mapInsert_ne _ _ (by omega), mapLookup_mapInsert_ne _ _ (by omega),
        mapLookup_mapInsert_self]
    · rw [mapLookup_mapInsert_ne _ _ (by omega), mapLookup_mapInsert_self]
    · rw [mapLookup_mapInsert_self]
  · intro k hk1 hklo hkhi
    cases h : mapLookup (p.prec.bucket x) p.floats with
    | some f =>
      rw [FloatPool.insert_occupied h]
    | none =>
      unfold FloatPool.insert
      simp only [h]
      rcases h1 : (p.prec.nearbyBuckets x).1 with _ | l1
      · rcases h2 : (p.prec.nearbyBuckets x).2.2 with _ | l2
        · simp only [h1, h2]
          exact mapLookup_mapInsert_ne _ _ hk1
        · simp only [h1, h2]
          rw [mapLookup_mapInsert_ne _ _ (hkhi l2 h2)]
          exact mapLookup_mapInsert_ne _ _ hk1
      · rcases h2 : (p.prec.nearbyBuckets x).2.2 with _ | l2
        · simp only [h1, h2]
          rw [mapLookup_mapInsert_ne _ _ (hklo l1 h1)]
          exact mapLookup_mapInsert_ne _ _ hk1
        · simp only [h1, h2]
          rw [mapLookup_mapInsert_ne _ _ (hkhi l2 h2),
            mapLookup_mapInsert_ne _ _ (hklo l1 h1)]
          exact mapLookup_mapInsert_ne _ _ hk1

/-- C3 amended witness: concrete instantiation at a fresh pool and `x = 0.2`
(the vacant-`mid` case; `mid = 1`, `lo = 0`, `hi = 2`). -/
theorem c3_amended_insert_frame_witness :
    mapLookup 1 ((FloatPool.new (Precision.absolute 3)).insert (1/5)).2.floats =
      some (1/5) ∧
    mapLookup 5 ((FloatPool.new (Precision.absolute 3)).insert (1/5)).2.floats =
      mapLookup 5 (FloatPool.new (Precision.absolute 3)).floats := by
  have h1 : (FloatPool.new (Precision.absolute 3)).prec.bucket (1/5) = 1 := by
    norm_num [FloatPool.new, Precision.bucket, ratTrunc, Precision.width, Precision.absolute]
  have hb : (FloatPool.new (Precision.absolute 3)).prec.bucket (1/5) ≠ 0 := by
    rw [h1]; omega
  have hvac : mapLookup ((FloatPool.new (Precision.absolute 3)).prec.bucket (1/5))
      (FloatPool.new (Precision.absolute 3)).floats = none := by
    rw [h1]; rfl
  have hnb : (FloatPool.new (Precision.absolute 3)).prec.nearbyBuckets (1/5) =
      (some 0, 1, some 2) := by
    rw [Precision.nearbyBuckets_of_ne_zero _ _ hb, h1]
    norm_num
  constructor
  · have hfst := ((c3_amended_insert_frame (FloatPool.new (Precision.absolute 3))
      (1/5)).2.1 hb hvac).1
    rwa [h1] at hfst
  · refine (c3_amended_insert_frame (FloatPool.new (Precision.absolute 3)) (1/5)).2.2
      5 ?_ ?_ ?_
    · rw [h1]; omega
    · intro l hl
      rw [hnb] at hl
      simp only [Option.some.injEq] at hl
      omega
    · intro l hl
      rw [hnb] at hl
      simp only [Option.some.injEq] at hl
      omega

/-- C4 counterexample: the seed invariant fails. After interning `0.2` in a
fresh pool at `Precision::absolute(3)`, the zero bucket's canonical value is
`0.2`, not `0.0`, and `intern(0.0)` returns `0.2`. -/
theorem c4_counterexample :
    mapLookup 0 ((FloatPool.new (Precision.absolute 3)).internFloat (1/5)).2.floats =
      some (1/5) ∧
    (((FloatPool.new (Precision.absolute 3)).internFloat (1/5)).2.internFloat 0).1 = 1/5 ∧
    (1/5 : ℚ) ≠ 0 := by
  refine ⟨?_, ?_, by norm_num⟩ <;>
  norm_num [FloatPool.internFloat, FloatPool.insert, Precision.nearbyBuckets, FloatPool.new,
    mapLookup, mapInsert, Precision.bucket, ratTrunc, Precision.width, Precision.absolute]

/-- C4 amended: in every reachable pool the zero-bucket key is present in
the mapping (it is seeded at construction and keys are never removed), and
`intern(0.0)` returns the zero bucket's current canonical value — which may
have been overwritten and need not be `0.0`. -/
theorem c4_amended_zero_bucket_key_persists {prec : Precision} {p : FloatPool}
    (hp : PoolReachable prec p) :
    (mapLookup 0 p.floats).isSome ∧
    ∀ c, mapLookup 0 p.floats = some c → (p.internFloat 0).1 = c := by
  constructor
  · induction hp with
    | base => rfl
    | step p x hr ih =>
      exact FloatPool.insert_preserves_key 0 ih
  · intro c hc
    have hb : mapLookup (p.prec.bucket 0) p.floats = some c := by
      rw [p.prec.bucket_zero]
      exact hc
    unfold FloatPool.internFloat
    rw [FloatPool.insert_occupied hb]

/-- C4 amended witness: the freshly constructed pool, where the zero
bucket's canonical value is still `0.0`. -/
theorem c4_amended_zero_bucket_key_persists_witness :
    (mapLookup 0 (FloatPool.new (Precision.absolute 3)).floats).isSome ∧
    ((FloatPool.new (Precision.absolute 3)).internFloat 0).1 = 0 :=
  ⟨(c4_amended_zero_bucket_key_persists PoolReachable.base).1,
    (c4_amended_zero_bucket_key_persists PoolReachable.base).2 0 rfl⟩

/-- C6 (confirmed): interning is idempotent on every reachable pool: the
second `intern` of the value returned by `intern` returns that same value
again (and changes no state). This holds despite neighbor overwrites,
because every float stored in the pool remains the canonical value of its
own `mid` bucket: that bucket's entry can only be overwritten from an
adjacent vacant bucket, and the insertion that stored the float occupied
both adjacent buckets. -/
theorem c6_intern_idempotent {prec : Precision} {p : FloatPool}
    (hp : PoolReachable prec p) (x : ℚ) :
    ((p.internFloat x).2.internFloat (p.internFloat x).1).1 = (p.internFloat x).1 ∧
    ((p.internFloat x).2.internFloat (p.internFloat x).1).2 = (p.internFloat x).2 := by
  have hinv := poolInv_of_reachable hp
  cases h : mapLookup (p.prec.bucket x) p.floats with
  | some f =>
    have h1 : p.internFloat x = (f, p) := by
      unfold FloatPool.internFloat
      rw [FloatPool.insert_occupied h]
    rw [h1]
    have hmem := mem_of_mapLookup_eq_some h
    have hcan := (hinv.2.2 _ hmem).1
    have h2 : p.internFloat f = (f, p) := by
      unfold FloatPool.internFloat
      rw [FloatPool.insert_occupied hcan]
    exact ⟨congrArg Prod.fst h2, congrArg Prod.snd h2⟩
  | none =>
    have hb : p.prec.bucket x ≠ 0 := by
      intro hc
      have hkey0 := hinv.2.1
      rw [← hc, h] at hkey0
      simp at hkey0
    obtain ⟨hv1, hvprec, hvfl⟩ := FloatPool.insert_vacant hb h
    have h1 : (p.internFloat x).1 = x := by
      unfold FloatPool.internFloat
      rw [hv1]
    rw [h1]
    have hq : mapLookup ((p.internFloat x).2.prec.bucket x) (p.internFloat x).2.floats
        = some x := by
      show mapLookup ((p.insert x).2.prec.bucket x) (p.insert x).2.floats = some x
      rw [hvprec, hvfl, mapLookup_mapInsert_ne _ _ (by omega),
        mapLookup_mapInsert_ne _ _ (by omega), mapLookup_mapInsert_self]
    constructor
    · show (((p.internFloat x).2.insert x).1.1 = x)
      rw [FloatPool.insert_occupied hq]
    · show (((p.internFloat x).2.insert x).2 = (p.internFloat x).2)
      rw [FloatPool.insert_occupied hq]

/-- C6 witness: idempotence instantiated at the fresh pool and `x = 0.2`. -/
theorem c6_intern_idempotent_witness :
    (((FloatPool.new (Precision.absolute 3)).internFloat (1/5)).2.internFloat
        ((FloatPool.new (Precision.absolute 3)).internFloat (1/5)).1).1 =
      ((FloatPool.new (Precision.absolute 3)).internFloat (1/5)).1 :=
  (c6_intern_idempotent PoolReachable.base (1/5)).1

/-- C7 (confirmed): `try_intern` is non-mutating (it takes `&self`, modelled
by purity here), fails — returning nothing — exactly when some float of the
composite falls in an unoccupied bucket, and on success returns the
composite with every float replaced by its bucket's existing canonical
value; a partial result is never surfaced. -/
theorem c7_try_intern_spec (p : FloatPool) (v : List ℚ) :
    (p.tryInternList v = none ↔ ∃ x ∈ v, p.get x = none) ∧
    ∀ w, p.tryInternList v = some w →
      w.length = v.length ∧
      ∀ i (hi : i < v.length) (hw : i < w.length),
        p.get (v.get ⟨i, hi⟩) = some (w.get ⟨i, hw⟩) := by
  induction v with
  | nil =>
    constructor
    · simp [FloatPool.tryInternList]
    · intro w hw
      rw [FloatPool.tryInternList] at hw
      injection hw with h
      subst h
      exact ⟨rfl, fun i hi _ => absurd hi (Nat.not_lt_zero i)⟩
  | cons x xs ih =>
    constructor
    · cases hg : p.get x with
      | none =>
        simp only [FloatPool.tryInternList, hg]
        exact ⟨fun _ => ⟨x, List.mem_cons_self _ _, hg⟩, fun _ => by trivial⟩
      | some s =>
        simp only [FloatPool.tryInternList, hg, Option.map_eq_none']
        rw [ih.1]
        constructor
        · rintro ⟨y, hy, hyn⟩
          exact ⟨y, List.mem_cons_of_mem _ hy, hyn⟩
        · rintro ⟨y, hy, hyn⟩
          rcases List.mem_cons.mp hy with rfl | hy'
          · rw [hg] at hyn; exact Option.noConfusion hyn
          · exact ⟨y, hy', hyn⟩
    · intro w hw
      cases hg : p.get x with
      | none =>
        rw [FloatPool.tryInternList, hg] at hw
        exact Option.noConfusion hw
      | some s =>
        rw [FloatPool.tryInternList, hg] at hw
        obtain ⟨w', hw', rfl⟩ := Option.map_eq_some'.mp hw
        obtain ⟨hlen, hget⟩ := ih.2 w' hw'
        refine ⟨by simp [hlen], ?_⟩
        intro i hi hwi
        match i with
        | 0 => exact hg
        | Nat.succ j =>
          exact hget j (Nat.lt_of_succ_lt_succ hi) (Nat.lt_of_succ_lt_succ hwi)

/-- C7 witness: in the pool obtained by interning `0.2` at
`Precision::absolute(3)`, `try_intern([0.2, 0.0])` succeeds and replaces
both floats by their buckets' canonical value `0.2`. -/
theorem c7_try_intern_spec_witness :
    ((FloatPool.new (Precision.absolute 3)).internFloat (1/5)).2.tryInternList [1/5, 0] =
      some [1/5, 1/5] ∧
    ([1/5, 1/5] : List ℚ).length = ([1/5, 0] : List ℚ).length := by
  have hpool : ((FloatPool.new (Precision.absolute 3)).internFloat (1/5)).2 =
      ⟨Precision.absolute 3, [(0, 1/5), (1, 1/5), (2, 1/5)]⟩ := by
    norm_num [FloatPool.internFloat, FloatPool.insert, Precision.nearbyBuckets, FloatPool.new,
      mapLookup, mapInsert, Precision.bucket, ratTrunc, Precision.width, Precision.absolute]
  have hs : ((FloatPool.new (Precision.absolute 3)).internFloat (1/5)).2.tryInternList
      [1/5, 0] = some [1/5, 1/5] := by
    rw [hpool]
    norm_num [FloatPool.tryInternList, FloatPool.get, mapLookup, Precision.bucket,
      ratTrunc, Precision.width, Precision.absolute]
  exact ⟨hs,
    (c7_try_intern_spec ((FloatPool.new (Precision.absolute 3)).internFloat (1/5)).2
      [1/5, 0] |>.2 [1/5, 1/5] hs).1⟩

/-- C10 (confirmed): the pool iterator yields a float `v` exactly when `v`
is the canonical value of its own bucket `bucket(v)`; consequently each
canonical float is yielded at most once even when it occupies up to three
bucket entries, and a float remaining only under a neighbor bucket key is
never yielded. -/
theorem c10_iter_yields_own_bucket_canonicals {prec : Precision} {p : FloatPool}
    (hp : PoolReachable prec p) (v : ℚ) :
    (v ∈ p.toFloatList ↔ p.get v = some v) ∧ p.toFloatList.count v ≤ 1 := by
  have hinv := poolInv_of_reachable hp
  have hnd : p.floats.Nodup := hinv.1.of_map
  constructor
  · constructor
    · intro hv
      unfold FloatPool.toFloatList at hv
      obtain ⟨kv, hkv, hsnd⟩ := List.mem_map.mp hv
      have hmem := (List.mem_filter.mp hkv).1
      have hpred : p.prec.bucket kv.2 = kv.1 := by
        have := (List.mem_filter.mp hkv).2
        exact beq_iff_eq.mp this
      have hkv_eq : kv = (p.prec.bucket v, v) := by
        rw [Prod.ext_iff]
        exact ⟨by rw [← hpred, hsnd], hsnd⟩
      rw [hkv_eq] at hmem
      exact mapLookup_eq_some_of_mem hinv.1 hmem
    · intro hv
      have hmem := mem_of_mapLookup_eq_some hv
      unfold FloatPool.toFloatList
      exact List.mem_map.mpr ⟨(p.prec.bucket v, v),
        List.mem_filter.mpr ⟨hmem, by simp⟩, rfl⟩
  · have hnodup : p.toFloatList.Nodup := by
      unfold FloatPool.toFloatList
      refine List.Nodup.map_on ?_ (hnd.filter _)
      intro a ha b hb hab
      have hpa : p.prec.bucket a.2 = a.1 := beq_iff_eq.mp (List.mem_filter.mp ha).2
      have hpb : p.prec.bucket b.2 = b.1 := beq_iff_eq.mp (List.mem_filter.mp hb).2
      rw [Prod.ext_iff]
      exact ⟨by rw [← hpa, ← hpb, hab], hab⟩
    exact List.nodup_iff_count_le_one.mp hnodup v

/-- C10 witness: in the pool obtained by interning `0.2` (which occupies
buckets 0, 1, 2), the iterator yields `0.2` exactly once. -/
theorem c10_iter_yields_own_bucket_canonicals_witness :
    ((1/5 : ℚ) ∈ ((FloatPool.new (Precision.absolute 3)).internFloat (1/5)).2.toFloatList ↔
      ((FloatPool.new (Precision.absolute 3)).internFloat (1/5)).2.get (1/5) =
        some (1/5)) ∧
    ((FloatPool.new (Precision.absolute 3)).internFloat (1/5)).2.toFloatList.count (1/5) ≤ 1 :=
  c10_iter_yields_own_bucket_canonicals
    (PoolReachable.step _ _ PoolReachable.base) (1/5)

/-! ## Trait layer (src/src/traits.rs) -/

/-- `impl<T: ApproxOrd> ApproxOrd for [T]`: zip the two slices, map the
element comparison, take the first non-equal result, and fall back to
comparing lengths. Generic over the element comparison (the Rust impl is
generic over `T: ApproxOrd` and a `Precision` passed to each element). -/
def sliceApproxCmp {α : Type} (cmp : α → α → Ordering) (l₁ l₂ : List α) : Ordering :=
  (((l₁.zip l₂).map fun q => cmp q.1 q.2).find? fun o => o != Ordering.eq).getD
    (compare l₁.length l₂.length)

/-- `impl<T: ApproxOrd> ApproxOrd for Option<T>`. -/
def optionApproxCmp {α : Type} (cmp : α → α → Ordering) : Option α → Option α → Ordering
  | none, none => Ordering.eq
  | none, some _ => Ordering.lt
  | some _, none => Ordering.gt
  | some a, some b => cmp a b

/-- C8 (confirmed): slice `approx_cmp` is lexicographic — the first
non-equal element pair decides, and when all compared pairs are equal the
shorter sequence orders before the longer — and on optional values `none`
orders before `some`, with `none = none`. -/
theorem c8_structural_ordering {α : Type} (cmp : α → α → Ordering) :
    (∀ (pre₁ pre₂ t₁ t₂ : List α) (a b : α),
      pre₁.length = pre₂.length →
      (∀ q ∈ pre₁.zip pre₂, cmp q.1 q.2 = Ordering.eq) →
      cmp a b ≠ Ordering.eq →
      sliceApproxCmp cmp (pre₁ ++ a :: t₁) (pre₂ ++ b :: t₂) = cmp a b) ∧
    (∀ l₁ l₂ : List α,
      (∀ q ∈ l₁.zip l₂, cmp q.1 q.2 = Ordering.eq) →
      sliceApproxCmp cmp l₁ l₂ = compare l₁.length l₂.length) ∧
    (∀ x : α, optionApproxCmp cmp none (some x) = Ordering.lt) ∧
    (∀ x : α, optionApproxCmp cmp (some x) none = Ordering.gt) ∧
    optionApproxCmp cmp none none = Ordering.eq := by
  refine ⟨?_, ?_, fun _ => rfl, fun _ => rfl, rfl⟩
  · intro pre₁ pre₂ t₁ t₂ a b hlen heq hne
    have hfind : ∀ (p₁ p₂ : List α), p₁.length = p₂.length →
        (∀ q ∈ p₁.zip p₂, cmp q.1 q.2 = Ordering.eq) →
        (((p₁ ++ a :: t₁).zip (p₂ ++ b :: t₂)).map fun q => cmp q.1 q.2).find?
          (fun o => o != Ordering.eq) = some (cmp a b) := by
      intro p₁
      induction p₁ with
      | nil =>
        intro p₂ hl _
        obtain rfl : p₂ = [] := List.length_eq_zero.mp hl.symm
        simp only [List.nil_append, List.zip_cons_cons, List.map_cons]
        have hb : (cmp a b != Ordering.eq) = true := by
          cases hcmp : cmp a b
          · decide
          · exact absurd hcmp hne
          · decide
        exact List.find?_cons_of_pos _ hb
      | cons y ys ih =>
        intro p₂ hl hq
        match p₂ with
        | [] => exact absurd hl (by simp)
        | z :: zs =>
          simp only [List.cons_append, List.zip_cons_cons, List.map_cons]
          have hyz : cmp y z = Ordering.eq := hq (y, z) (by simp)
          have hskip : List.find? (fun o => o != Ordering.eq)
              (Ordering.eq :: List.map (fun q => cmp q.1 q.2)
                ((ys ++ a :: t₁).zip (zs ++ b :: t₂))) =
              List.find? (fun o => o != Ordering.eq)
              (List.map (fun q => cmp q.1 q.2) ((ys ++ a :: t₁).zip (zs ++ b :: t₂))) :=
            List.find?_cons_of_neg _ (by decide)
          rw [hyz, hskip]
          exact ih zs (by simpa using hl) fun q hqq => hq q (by simp [hqq])
    unfold sliceApproxCmp
    rw [hfind pre₁ pre₂ hlen heq]
    rfl
  · intro l₁ l₂ hq
    unfold sliceApproxCmp
    have hnone : ((l₁.zip l₂).map fun q => cmp q.1 q.2).find? (fun o => o != Ordering.eq)
        = none := by
      rw [List.find?_eq_none]
      intro o ho
      obtain ⟨q, hqz, rfl⟩ := List.mem_map.mp ho
      simp only [hq q hqz]
      decide
    rw [hnone]
    rfl

/-- C8 witness: concrete instantiations of each clause at integer
comparison. -/
theorem c8_structural_ordering_witness :
    sliceApproxCmp (compare : ℤ → ℤ → Ordering) [0, 1] [0, 2] = Ordering.lt ∧
    sliceApproxCmp (compare : ℤ → ℤ → Ordering) [7] [7, 5] = Ordering.lt ∧
    optionApproxCmp (compare : ℤ → ℤ → Ordering) none (some 3) = Ordering.lt := by
  obtain ⟨hlex, hlen, hns, -, -⟩ := c8_structural_ordering (compare : ℤ → ℤ → Ordering)
  refine ⟨?_, ?_, hns 3⟩
  · have := hlex [0] [0] [] [] 1 2 (by decide) (by decide) (by decide)
    simpa using this
  · have := hlen [7] [7, 5] (by decide)
    simpa using this

/-! ## ApproxHashMap (src/src/hash_map.rs)

Keys are composite `ApproxHash` values, modelled as the list of their floats
in visitation order. The outer table (`HashMap<u64, LinearApproxMap<K, V>>`)
is an association list from hash to the inner `(key, value)` list; the hash
builder `S` is modelled as an arbitrary function on interned keys. -/

/-- `interned_eq` for a composite of floats (`[T]` delegates element-wise
after a length check; `f64` compares bit patterns, which for the rational
model is plain equality). -/
def internedEq (a b : List ℚ) : Bool :=
  a.length == b.length && (a.zip b).all fun q => q.1 == q.2

theorem internedEq_iff (a b : List ℚ) : internedEq a b = true ↔ a = b := by
  induction a generalizing b with
  | nil =>
    cases b <;> simp [internedEq]
  | cons x xs ih =>
    cases b with
    | nil => simp [internedEq]
    | cons y ys =>
      constructor
      · intro h
        simp only [internedEq, List.zip_cons_cons, List.all_cons, Bool.and_eq_true,
          beq_iff_eq, List.length_cons] at h
        obtain ⟨hl, hx, hall⟩ := h
        have hxs : xs = ys := (ih ys).mp (by
          simp only [internedEq, Bool.and_eq_true, beq_iff_eq]
          exact ⟨by omega, hall⟩)
        rw [hx, hxs]
      · intro he
        rw [List.cons.injEq] at he
        obtain ⟨rfl, rfl⟩ := he
        simp only [internedEq, List.zip_cons_cons, List.all_cons, Bool.and_eq_true,
          beq_iff_eq, List.length_cons]
        refine ⟨by trivial, by trivial, ?_⟩
        have h := (ih xs).mpr rfl
        simp only [internedEq, Bool.and_eq_true, beq_iff_eq] at h
        exact h.2

/-- `LinearApproxMap::index_of`: position of the first entry whose stored
key is `interned_eq` to the probe key. -/
def indexOfKey {V : Type} (k : List ℚ) : List (List ℚ × V) → Option ℕ
  | [] => none
  | (k', _) :: t => if internedEq k' k then some 0 else (indexOfKey k t).map (· + 1)

/-- `OccupiedEntry::insert` applied at an index: `mem::replace` on the value
slot only; the stored key is untouched. -/
def setValueAt {κ V : Type} : List (κ × V) → ℕ → V → List (κ × V)
  | [], _, _ => []
  | (k, _) :: t, 0, v => (k, v) :: t
  | q :: t, n + 1, v => q :: setValueAt t n v

/-- `ApproxHashMap<K, V, S>`: hash builder, owned pool, outer table and
cached entry count. -/
structure ApproxHashMap (V : Type) where
  hashFn : List ℚ → ℕ
  pool : FloatPool
  table : List (ℕ × List (List ℚ × V))
  len : ℕ

namespace ApproxHashMap

/-- `ApproxHashMap::with_hasher`: empty map with a fresh pool. -/
def withHasher {V : Type} (hashFn : List ℚ → ℕ) (prec : Precision) : ApproxHashMap V :=
  ⟨hashFn, FloatPool.new prec, [], 0⟩

/-- `ApproxHashMap::intern_and_hash`: interns the key in place (mutating the
pool) and hashes the interned key. Returns the interned key, its hash, and
the updated pool. -/
def internAndHash {V : Type} (m : ApproxHashMap V) (k : List ℚ) : (List ℚ × ℕ) × FloatPool :=
  ((((m.pool.internList k).1), m.hashFn (m.pool.internList k).1), (m.pool.internList k).2)

/-- `ApproxHashMap::insert` (via `entry` + `OccupiedEntry::insert` /
`VacantEntry::insert_entry`): on an occupied entry, replace only the value
and return the old one; on a vacant entry, append (or create the slot) and
increment the count. -/
def insert {V : Type} (m : ApproxHashMap V) (k : List ℚ) (v : V) :
    Option V × ApproxHashMap V :=
  match mapLookup (m.internAndHash k).1.2 m.table with
  | some lam =>
    match indexOfKey (m.internAndHash k).1.1 lam with
    | some i =>
      ((lam.get? i).map Prod.snd,
        ⟨m.hashFn, (m.internAndHash k).2,
          mapInsert (m.internAndHash k).1.2 (setValueAt lam i v) m.table, m.len⟩)
    | none =>
      (none,
        ⟨m.hashFn, (m.internAndHash k).2,
          mapInsert (m.internAndHash k).1.2 (lam ++ [((m.internAndHash k).1.1, v)]) m.table,
          m.len + 1⟩)
  | none =>
    (none,
      ⟨m.hashFn, (m.internAndHash k).2,
        mapInsert (m.internAndHash k).1.2 [((m.internAndHash k).1.1, v)] m.table,
        m.len + 1⟩)

/-- `ApproxHashMap::remove_entry`: interns and hashes the key (mutating the
pool), locates the slot and index, and removes the pair from the inner list
with `SmallVec::remove`. As in the source, the cached `len` is not
decremented and an emptied inner list is left in the outer table. -/
def removeEntry {V : Type} (m : ApproxHashMap V) (k : List ℚ) :
    Option (List ℚ × V) × ApproxHashMap V :=
  match mapLookup (m.internAndHash k).1.2 m.table with
  | none => (none, ⟨m.hashFn, (m.internAndHash k).2, m.table, m.len⟩)
  | some lam =>
    match indexOfKey (m.internAndHash k).1.1 lam with
    | none => (none, ⟨m.hashFn, (m.internAndHash k).2, m.table, m.len⟩)
    | some i =>
      (lam.get? i,
        ⟨m.hashFn, (m.internAndHash k).2,
          mapInsert (m.internAndHash k).1.2 (lam.eraseIdx i) m.table, m.len⟩)

/-- `ApproxHashMap::clear`: `self.map.clear()` only — the cached `len` and
the pool are untouched, exactly as in the source. -/
def clear {V : Type} (m : ApproxHashMap V) : ApproxHashMap V :=
  ⟨m.hashFn, m.pool, [], m.len⟩

/-- Total number of `(key, value)` pairs across all outer-table lists. -/
def totalPairs {V : Type} (m : ApproxHashMap V) : ℕ :=
  (m.table.map fun s => s.2.length).sum

/-- All stored keys, slot by slot. -/
def allKeys {V : Type} (m : ApproxHashMap V) : List (List ℚ) :=
  (m.table.map fun s => s.2.map Prod.fst).flatten

/-- Lookup of the value stored for an already-interned key with a known
hash (the slot scan of `get`/`get_key_value`). -/
def lookupInterned {V : Type} (m : ApproxHashMap V) (k' : List ℚ) (h : ℕ) : Option V :=
  match mapLookup h m.table with
  | none => none
  | some lam =>
    match indexOfKey k' lam with
    | none => none
    | some i => (lam.get? i).map Prod.snd

theorem insert_hit {V : Type} {m : ApproxHashMap V} {k : List ℚ} {v : V}
    {lam : List (List ℚ × V)} {i : ℕ}
    (hlk : mapLookup (m.internAndHash k).1.2 m.table = some lam)
    (hidx : indexOfKey (m.internAndHash k).1.1 lam = some i) :
    m.insert k v = ((lam.get? i).map Prod.snd,
      ⟨m.hashFn, (m.internAndHash k).2,
        mapInsert (m.internAndHash k).1.2 (setValueAt lam i v) m.table, m.len⟩) := by
  unfold ApproxHashMap.insert
  simp only [hlk, hidx]

theorem insert_miss_slot {V : Type} {m : ApproxHashMap V} {k : List ℚ} (v : V)
    (hlk : mapLookup (m.internAndHash k).1.2 m.table = none) :
    (m.insert k v).1 = none := by
  unfold ApproxHashMap.insert
  simp only [hlk]

theorem insert_miss_index {V : Type} {m : ApproxHashMap V} {k : List ℚ} (v : V)
    {lam : List (List ℚ × V)}
    (hlk : mapLookup (m.internAndHash k).1.2 m.table = some lam)
    (hidx : indexOfKey (m.internAndHash k).1.1 lam = none) :
    (m.insert k v).1 = none := by
  unfold ApproxHashMap.insert
  simp only [hlk, hidx]

end ApproxHashMap

theorem keys_setValueAt {κ V : Type} (l : List (κ × V)) (i : ℕ) (v : V) :
    (setValueAt l i v).map Prod.fst = l.map Prod.fst := by
  induction l generalizing i with
  | nil => cases i <;> rfl
  | cons q t ih =>
    obtain ⟨k, w⟩ := q
    cases i with
    | zero => rfl
    | succ j => simpa [setValueAt] using ih j

theorem map_snd_mapInsert {κ ν β : Type} [DecidableEq κ] (f : ν → β) {h : κ}
    {lam : ν} {tbl : List (κ × ν)} (lam' : ν)
    (hlk : mapLookup h tbl = some lam) (hf : f lam' = f lam) :
    (mapInsert h lam' tbl).map (fun s => f s.2) = tbl.map (fun s => f s.2) := by
  induction tbl with
  | nil => simp [mapLookup] at hlk
  | cons q t ih =>
    obtain ⟨k₀, v₀⟩ := q
    by_cases hk : h = k₀
    · subst hk
      rw [mapLookup, if_pos rfl, Option.some.injEq] at hlk
      subst hlk
      simp [mapInsert, hf]
    · rw [mapLookup, if_neg hk] at hlk
      simp [mapInsert, hk, ih hlk]

/-! ## Claims about the ApproxHashMap -/

/-- A concrete empty map (constant hash builder, `Precision::absolute(3)`). -/
def exMap0 : ApproxHashMap ℕ := ApproxHashMap.withHasher (fun _ => 0) (Precision.absolute 3)

/-- `exMap0` after one successful insert of key `[0.0]` with value `10`. -/
def exMap1 : ApproxHashMap ℕ := (exMap0.insert [0] 10).2

/-- C9 (confirmed): when `insert` finds a stored key interned-equal to the
probe key (it returns the old value, i.e. `Some`), the cached count is
unchanged, the stored keys — slot layout included — are unchanged (the
stored key object is retained and the probe key discarded), and the value
returned is exactly the value previously stored for that interned key. -/
theorem c9_insert_existing_key_replaces_value_only {V : Type} (m : ApproxHashMap V)
    (k : List ℚ) (v : V) (h : ((m.insert k v).1).isSome) :
    (m.insert k v).2.len = m.len ∧
    (m.insert k v).2.allKeys = m.allKeys ∧
    (m.insert k v).1 = m.lookupInterned (m.internAndHash k).1.1 (m.internAndHash k).1.2 := by
  cases hlk : mapLookup (m.internAndHash k).1.2 m.table with
  | none =>
    rw [ApproxHashMap.insert_miss_slot v hlk] at h
    exact absurd h (by simp)
  | some lam =>
    cases hidx : indexOfKey (m.internAndHash k).1.1 lam with
    | none =>
      rw [ApproxHashMap.insert_miss_index v hlk hidx] at h
      exact absurd h (by simp)
    | some i =>
      rw [ApproxHashMap.insert_hit hlk hidx]
      refine ⟨rfl, ?_, ?_⟩
      · unfold ApproxHashMap.allKeys
        exact congrArg List.flatten
          (map_snd_mapInsert (fun l => l.map Prod.fst) _ hlk (keys_setValueAt lam i v))
      · unfold ApproxHashMap.lookupInterned
        simp only [hlk, hidx]

/-- C9 witness: inserting a second value for key `[0.0]` into `exMap1`. -/
theorem c9_insert_existing_key_replaces_value_only_witness :
    (exMap1.insert [0] 20).2.len = exMap1.len ∧
    (exMap1.insert [0] 20).2.allKeys = exMap1.allKeys ∧
    (exMap1.insert [0] 20).1 =
      exMap1.lookupInterned (exMap1.internAndHash [0]).1.1 (exMap1.internAndHash [0]).1.2 :=
  c9_insert_existing_key_replaces_value_only exMap1 [0] 20 (by
    norm_num [exMap1, exMap0, ApproxHashMap.withHasher, ApproxHashMap.insert,
      ApproxHashMap.internAndHash, FloatPool.internList, FloatPool.internFloat,
      FloatPool.insert, Precision.nearbyBuckets, FloatPool.new, mapLookup, mapInsert,
      indexOfKey, internedEq, setValueAt, Precision.bucket, ratTrunc, Precision.width,
      Precision.absolute])

/-- C1 (code bug): `ApproxHashMap::remove_entry` (src/src/hash_map.rs lines
314-319) never decrements the cached `len`, in any branch; concretely, after
one successful insert and one successful `remove_entry`, `len()` is still 1
where the claim requires 1 − 1 = 0. -/
theorem c1_remove_entry_never_decrements_len :
    (∀ (V : Type) (m : ApproxHashMap V) (k : List ℚ),
      ((m.removeEntry k).2).len = m.len) ∧
    exMap1.len = 1 ∧
    ((exMap1.removeEntry [0]).1).isSome ∧
    (exMap1.removeEntry [0]).2.len = 1 := by
  refine ⟨?_, ?_, ?_, ?_⟩
  · intro V m k
    unfold ApproxHashMap.removeEntry
    split
    · rfl
    · split <;> rfl
  all_goals
    norm_num [exMap1, exMap0, ApproxHashMap.withHasher, ApproxHashMap.insert,
      ApproxHashMap.removeEntry, ApproxHashMap.internAndHash, FloatPool.internList,
      FloatPool.internFloat, FloatPool.insert, Precision.nearbyBuckets, FloatPool.new,
      mapLookup, mapInsert, indexOfKey, internedEq, setValueAt, List.eraseIdx,
      Precision.bucket, ratTrunc, Precision.width, Precision.absolute]

/-- C2 (code bug): `clear` empties the outer table and leaves the pool
untouched, but it does not reset the cached `len`; after one insert and a
`clear`, `len()` still returns 1 where the claim requires 0. -/
theorem c2_clear_keeps_stale_len :
    (∀ (V : Type) (m : ApproxHashMap V),
      m.clear.table = [] ∧ m.clear.pool = m.pool ∧ m.clear.len = m.len) ∧
    exMap1.clear.len = 1 := by
  refine ⟨fun V m => ⟨rfl, rfl, rfl⟩, ?_⟩
  show exMap1.len = 1
  norm_num [exMap1, exMap0, ApproxHashMap.withHasher, ApproxHashMap.insert,
    ApproxHashMap.internAndHash, FloatPool.internList, FloatPool.internFloat,
    FloatPool.insert, Precision.nearbyBuckets, FloatPool.new, mapLookup, mapInsert,
    indexOfKey, internedEq, setValueAt, Precision.bucket, ratTrunc, Precision.width,
    Precision.absolute]

/-- C5 (code bug): after a successful `ApproxHashMap::remove_entry` that
empties an inner list, the outer table retains a slot holding an empty list
and the cached count (still 1) differs from the total number of stored pairs
(0) — both halves of the claimed invariant fail. -/
theorem c5_remove_entry_breaks_invariant :
    ((exMap1.removeEntry [0]).1).isSome ∧
    (exMap1.removeEntry [0]).2.table = [(0, [])] ∧
    (exMap1.removeEntry [0]).2.totalPairs = 0 ∧
    (exMap1.removeEntry [0]).2.len = 1 := by
  refine ⟨?_, ?_, ?_, ?_⟩ <;>
  norm_num [exMap1, exMap0, ApproxHashMap.withHasher, ApproxHashMap.insert,
    ApproxHashMap.removeEntry, ApproxHashMap.totalPairs, ApproxHashMap.internAndHash,
    FloatPool.internList, FloatPool.internFloat, FloatPool.insert, Precision.nearbyBuckets,
    FloatPool.new, mapLookup, mapInsert, indexOfKey, internedEq, setValueAt, List.eraseIdx,
    Precision.bucket, ratTrunc, Precision.width, Precision.absolute]

end ApproxCollections
